import Mathlib

/-
Verification of the aslam_cv2 pinhole camera model against its specification.

The embedding models `PinholeProjection` from
`src/aslam_cameras/src/pinhole-camera.cc`. C++ doubles are embedded as
rationals (the projection pipeline uses only field operations), except for
the intrinsics initializer and the circle-intersection helper, which take
genuine square roots and are embedded over the reals. The distortion model
is a template parameter of `PinholeProjection` in the source; it is carried
as function-valued fields of the camera record (one map plus one Jacobian
map for each direction), matching the interface the source calls
(`distort`, `undistort`, and their Jacobian-filling overloads).
-/

namespace AslamPinhole

/-- A 2 by 2 matrix of rationals, the distortion Jacobian shape. -/
structure Mat2 where
  m00 : ℚ
  m01 : ℚ
  m10 : ℚ
  m11 : ℚ
  deriving DecidableEq

/-- A 2 by 3 matrix of rationals, the Jacobian of the forward projection. -/
structure Mat23 where
  a00 : ℚ
  a01 : ℚ
  a02 : ℚ
  a10 : ℚ
  a11 : ℚ
  a12 : ℚ
  deriving DecidableEq

/-- A 2 by 4 matrix of rationals, the Jacobian of the homogeneous forward
projection. -/
structure Mat24 where
  b00 : ℚ
  b01 : ℚ
  b02 : ℚ
  b03 : ℚ
  b10 : ℚ
  b11 : ℚ
  b12 : ℚ
  b13 : ℚ
  deriving DecidableEq

/-- A 3 by 2 matrix of rationals, the Jacobian of the back-projection. -/
structure Mat32 where
  c00 : ℚ
  c01 : ℚ
  c10 : ℚ
  c11 : ℚ
  c20 : ℚ
  c21 : ℚ
  deriving DecidableEq

/-- A Euclidean 3-point in the camera frame. -/
structure Vec3 where
  x : ℚ
  y : ℚ
  z : ℚ
  deriving DecidableEq

/-- A homogeneous 4-point. -/
structure Vec4 where
  x : ℚ
  y : ℚ
  z : ℚ
  w : ℚ
  deriving DecidableEq

/-- The first three coordinates of a homogeneous point
(`ph.derived().template head<3>()` in the source). -/
def Vec4.head3 (p : Vec4) : Vec3 :=
  ⟨p.x, p.y, p.z⟩

/-- The negated first three coordinates of a homogeneous point
(`-ph.derived().template head<3>()` in the source). -/
def Vec4.negHead3 (p : Vec4) : Vec3 :=
  ⟨-p.x, -p.y, -p.z⟩

/-- State of `PinholeProjection<DISTORTION_T>`: intrinsics `_fu _fv _cu _cv`,
resolution `_ru _rv` (C++ `int`), the cached temporaries `_recip_fu _recip_fv
_fu_over_fv`, and the owned distortion instance, carried as its `distort` /
`undistort` maps together with their 2 by 2 point Jacobians. -/
structure PinholeCamera where
  fu : ℚ
  fv : ℚ
  cu : ℚ
  cv : ℚ
  ru : ℤ
  rv : ℤ
  recip_fu : ℚ
  recip_fv : ℚ
  fu_over_fv : ℚ
  distort : ℚ × ℚ → ℚ × ℚ
  distortJac : ℚ × ℚ → Mat2
  undistort : ℚ × ℚ → ℚ × ℚ
  undistortJac : ℚ × ℚ → Mat2

/-- Source lines 481-488: `keypoint[0] >= 0 && keypoint[1] >= 0 &&
keypoint[0] < (double) _ru && keypoint[1] < (double) _rv`. -/
def isValid (cam : PinholeCamera) (k : ℚ × ℚ) : Bool :=
  decide (0 ≤ k.1) && decide (0 ≤ k.2) && decide (k.1 < (cam.ru : ℚ))
    && decide (k.2 < (cam.rv : ℚ))

/-- Claim C4: `isValid` holds iff `0 <= x < ru` and `0 <= y < rv` with the
upper bound exclusive; under positive resolution, `(0,0)` and `(ru-1, rv-1)`
are valid, an in-range principal point `(cu, cv)` is valid, and `(-1,0)`,
`(-1,-1)` and `(ru, rv)` are invalid. -/
theorem C4_isValid_exclusive_bounds (cam : PinholeCamera)
    (hru : 0 < cam.ru) (hrv : 0 < cam.rv) :
    (∀ k : ℚ × ℚ, isValid cam k = true ↔
      (0 ≤ k.1 ∧ k.1 < (cam.ru : ℚ) ∧ 0 ≤ k.2 ∧ k.2 < (cam.rv : ℚ))) ∧
    isValid cam (0, 0) = true ∧
    isValid cam ((cam.ru : ℚ) - 1, (cam.rv : ℚ) - 1) = true ∧
    (0 ≤ cam.cu → cam.cu < (cam.ru : ℚ) → 0 ≤ cam.cv → cam.cv < (cam.rv : ℚ) →
      isValid cam (cam.cu, cam.cv) = true) ∧
    isValid cam (-1, 0) = false ∧
    isValid cam (-1, -1) = false ∧
    isValid cam ((cam.ru : ℚ), (cam.rv : ℚ)) = false := by
  have hru' : (0 : ℚ) < (cam.ru : ℚ) := by exact_mod_cast hru
  have hrv' : (0 : ℚ) < (cam.rv : ℚ) := by exact_mod_cast hrv
  have hru1 : (1 : ℚ) ≤ (cam.ru : ℚ) := by exact_mod_cast hru
  have hrv1 : (1 : ℚ) ≤ (cam.rv : ℚ) := by exact_mod_cast hrv
  refine ⟨?_, ?_, ?_, ?_, ?_, ?_, ?_⟩
  · intro k
    simp only [isValid, Bool.and_eq_true, decide_eq_true_eq]
    tauto
  · simp [isValid, hru', hrv']
  · simp only [isValid, Bool.and_eq_true, decide_eq_true_eq]
    refine ⟨⟨⟨by linarith, by linarith⟩, by linarith⟩, by linarith⟩
  · intro h1 h2 h3 h4
    simp [isValid, h1, h2, h3, h4]
  · simp [isValid]
  · simp [isValid]
  · simp [isValid]

/-- The camera of `getTestProjection` (source lines 563-567): intrinsics
`(400, 400, 320, 240)`, resolution 640 by 480, with the identity (null)
distortion variant. -/
def testCamera : PinholeCamera where
  fu := 400
  fv := 400
  cu := 320
  cv := 240
  ru := 640
  rv := 480
  recip_fu := 1 / 400
  recip_fv := 1 / 400
  fu_over_fv := 1
  distort := fun k => k
  distortJac := fun _ => ⟨1, 0, 0, 1⟩
  undistort := fun k => k
  undistortJac := fun _ => ⟨1, 0, 0, 1⟩

/-- Witness for C4 at the test camera: resolution 640 by 480, principal
point `(320, 240)`. -/
theorem C4_isValid_exclusive_bounds_witness :
    isValid testCamera (0, 0) = true ∧
    isValid testCamera ((testCamera.ru : ℚ) - 1, (testCamera.rv : ℚ) - 1)
      = true ∧
    isValid testCamera (testCamera.cu, testCamera.cv) = true ∧
    isValid testCamera ((testCamera.ru : ℚ), (testCamera.rv : ℚ)) = false := by
  obtain ⟨-, v1, v2, v3, -, -, v4⟩ :=
    C4_isValid_exclusive_bounds testCamera (by decide) (by decide)
  exact ⟨v1, v2, v3 (by decide) (by decide) (by decide) (by decide), v4⟩

/-- Source lines 70-95, `euclideanToKeypoint(p, outKeypoint)`:
`rz = 1.0 / p[2]`, write `(p[0]*rz, p[1]*rz)`, distort in place, scale and
offset by the intrinsics, and return `isValid(outKeypoint) && p[2] > 0`.
The written keypoint is the first component, the boolean the second. -/
def euclideanToKeypoint (cam : PinholeCamera) (p : Vec3) : (ℚ × ℚ) × Bool :=
  let rz := 1 / p.z
  let k0 := (p.x * rz, p.y * rz)
  let kd := cam.distort k0
  let k := (cam.fu * kd.1 + cam.cu, cam.fv * kd.2 + cam.cv)
  (k, isValid cam k && decide (0 < p.z))

/-- Source lines 97-143, `euclideanToKeypoint(p, outKeypoint, outJp)`:
as the plain overload, with the 2 by 3 Jacobian assembled from the
distortion Jacobian `Jd` by the chain rule through the perspective
division (`J(0,0) = fu*Jd(0,0)*rz`, ..., `J(0,2) = -fu*(p0*Jd(0,0) +
p1*Jd(0,1))*rz2`). Result is (keypoint, Jacobian, boolean). -/
def euclideanToKeypointJ (cam : PinholeCamera) (p : Vec3) :
    (ℚ × ℚ) × Mat23 × Bool :=
  let rz := 1 / p.z
  let rz2 := rz * rz
  let k0 := (p.x * rz, p.y * rz)
  let kd := cam.distort k0
  let Jd := cam.distortJac k0
  let J : Mat23 :=
    ⟨cam.fu * Jd.m00 * rz, cam.fu * Jd.m01 * rz,
     -cam.fu * (p.x * Jd.m00 + p.y * Jd.m01) * rz2,
     cam.fv * Jd.m10 * rz, cam.fv * Jd.m11 * rz,
     -cam.fv * (p.x * Jd.m10 + p.y * Jd.m11) * rz2⟩
  let k := (cam.fu * kd.1 + cam.cu, cam.fv * kd.2 + cam.cv)
  (k, J, isValid cam k && decide (0 < p.z))

/-- Source lines 145-161, `homogeneousToKeypoint(ph, outKeypoint)`:
`if (ph[3] < 0)` project `-ph.head<3>()` else project `ph.head<3>()`, via
the Euclidean overload. -/
def homogeneousToKeypoint (cam : PinholeCamera) (ph : Vec4) :
    (ℚ × ℚ) × Bool :=
  if ph.w < 0 then euclideanToKeypoint cam ph.negHead3
  else euclideanToKeypoint cam ph.head3

/-- Embed a 2 by 3 Jacobian as the top-left block of a zeroed 2 by 4 one
(`J.setZero()` then writing `J.topLeftCorner<2, 3>()`). -/
def Mat23.inTopLeftOf24 (J : Mat23) : Mat24 :=
  ⟨J.a00, J.a01, J.a02, 0, J.a10, J.a11, J.a12, 0⟩

/-- Source lines 163-196, `homogeneousToKeypoint(ph, outKeypoint, outJp)`:
the 2 by 4 Jacobian is zeroed and the function returns
`euclideanToKeypoint(ph.head<3>(), outKeypoint, J.topLeftCorner<2,3>())`
unconditionally; the `if (ph[3] < 0)` block negating the Jacobian stands
after that return statement and is never reached, so the translation of
the reachable code has no sign branch. -/
def homogeneousToKeypointJ (cam : PinholeCamera) (ph : Vec4) :
    (ℚ × ℚ) × Mat24 × Bool :=
  let r := euclideanToKeypointJ cam ph.head3
  (r.1, r.2.1.inTopLeftOf24, r.2.2)

/-- Source lines 198-225, `keypointToEuclidean(keypoint, outPoint)`:
subtract the principal point, divide by the focal lengths, undistort, set
`z = 1`; return `isValid(keypoint)` of the input keypoint. -/
def keypointToEuclidean (cam : PinholeCamera) (k : ℚ × ℚ) : Vec3 × Bool :=
  let kp := ((k.1 - cam.cu) / cam.fu, (k.2 - cam.cv) / cam.fv)
  let ku := cam.undistort kp
  (⟨ku.1, ku.2, 1⟩, isValid cam k)

/-- Source lines 227-273, `keypointToEuclidean(keypoint, outPoint, outJk)`:
as the plain overload; the 3 by 2 Jacobian is the zeroed matrix with
`J(0,0) = _recip_fu`, `J(1,1) = _recip_fv` multiplied on the right by the
2 by 2 undistortion Jacobian `Jd` (`J *= Jd`), and the boolean is again
`isValid(keypoint)` of the input. -/
def keypointToEuclideanJ (cam : PinholeCamera) (k : ℚ × ℚ) :
    Vec3 × Mat32 × Bool :=
  let kp := ((k.1 - cam.cu) / cam.fu, (k.2 - cam.cv) / cam.fv)
  let ku := cam.undistort kp
  let Jd := cam.undistortJac kp
  let J : Mat32 :=
    ⟨cam.recip_fu * Jd.m00, cam.recip_fu * Jd.m01,
     cam.recip_fv * Jd.m10, cam.recip_fv * Jd.m11,
     0, 0⟩
  (⟨ku.1, ku.2, 1⟩, J, isValid cam k)

/-- Modelled from the spec wording of claim C1: the keypoint obtained by
normalizing `(p.x/p.z, p.y/p.z)`, applying `distort`, scaling by
`(fu, fv)` and offsetting by `(cu, cv)`. -/
def specForwardKeypoint (cam : PinholeCamera) (p : Vec3) : ℚ × ℚ :=
  let n := (p.x / p.z, p.y / p.z)
  let dn := cam.distort n
  (cam.fu * dn.1 + cam.cu, cam.fv * dn.2 + cam.cv)

/-- Modelled from the spec wording of claim C5: subtract the principal
point, divide by the focal lengths, undistort, set `z = 1`. -/
def specBackProjectedPoint (cam : PinholeCamera) (k : ℚ × ℚ) : Vec3 :=
  let n := cam.undistort ((k.1 - cam.cu) / cam.fu, (k.2 - cam.cv) / cam.fv)
  ⟨n.1, n.2, 1⟩

/-- Claim C1: for `p.z` nonzero, `euclideanToKeypoint` writes the composite
normalize-distort-scale-offset keypoint (also when it returns false), and
returns true iff that keypoint satisfies `isValid` and `p.z > 0`. -/
theorem C1_euclideanToKeypoint_spec (cam : PinholeCamera) (p : Vec3)
    (hz : p.z ≠ 0) :
    (euclideanToKeypoint cam p).1 = specForwardKeypoint cam p ∧
    ((euclideanToKeypoint cam p).2 = true ↔
      isValid cam (specForwardKeypoint cam p) = true ∧ 0 < p.z) := by
  have hx : p.x * (1 / p.z) = p.x / p.z := by ring
  have hy : p.y * (1 / p.z) = p.y / p.z := by ring
  constructor
  · simp only [euclideanToKeypoint, specForwardKeypoint, hx, hy]
  · simp only [euclideanToKeypoint, specForwardKeypoint, hx, hy,
      Bool.and_eq_true, decide_eq_true_eq]

/-- Witness for C1: the on-axis point `(0, 0, 1)` at the test camera
projects to the principal point `(320, 240)` and is reported valid. -/
theorem C1_euclideanToKeypoint_spec_witness :
    (euclideanToKeypoint testCamera ⟨0, 0, 1⟩).1
        = specForwardKeypoint testCamera ⟨0, 0, 1⟩ ∧
    specForwardKeypoint testCamera ⟨0, 0, 1⟩ = (320, 240) ∧
    (euclideanToKeypoint testCamera ⟨0, 0, 1⟩).2 = true := by
  obtain ⟨h1, h2⟩ :=
    C1_euclideanToKeypoint_spec testCamera ⟨0, 0, 1⟩ (by norm_num)
  have hk : specForwardKeypoint testCamera ⟨0, 0, 1⟩ = (320, 240) := by
    simp [specForwardKeypoint, testCamera]
  refine ⟨h1, hk, h2.mpr ⟨?_, by norm_num⟩⟩
  rw [hk]
  norm_num [isValid, testCamera]

/-- Claim C2: the non-Jacobian homogeneous overload projects `-ph.xyz`
when `ph.w < 0` and `ph.xyz` otherwise; the Jacobian overload ignores the
sign of `ph.w` entirely (the negating branch is dead code): its keypoint,
Jacobian and boolean equal those of the Euclidean Jacobian overload at
`ph.xyz`, whatever the value of `w`. -/
theorem C2_homogeneousToKeypoint_sign (cam : PinholeCamera) (ph : Vec4) :
    (ph.w < 0 →
      homogeneousToKeypoint cam ph = euclideanToKeypoint cam ph.negHead3) ∧
    (0 ≤ ph.w →
      homogeneousToKeypoint cam ph = euclideanToKeypoint cam ph.head3) ∧
    (homogeneousToKeypointJ cam ph).1 = (euclideanToKeypointJ cam ph.head3).1 ∧
    (homogeneousToKeypointJ cam ph).2.1
      = (euclideanToKeypointJ cam ph.head3).2.1.inTopLeftOf24 ∧
    (homogeneousToKeypointJ cam ph).2.2
      = (euclideanToKeypointJ cam ph.head3).2.2 ∧
    (∀ w : ℚ, homogeneousToKeypointJ cam ⟨ph.x, ph.y, ph.z, w⟩
      = homogeneousToKeypointJ cam ph) := by
  refine ⟨fun hw => ?_, fun hw => ?_, rfl, rfl, rfl, fun w => rfl⟩
  · simp [homogeneousToKeypoint, hw]
  · simp [homogeneousToKeypoint, not_lt.mpr hw]

/-- Witness for C2 at the test camera and the behind-camera homogeneous
point `(0, 0, -1, -1)`: the plain overload projects the negated head
`(0, 0, 1)` (reaching the principal point), while the Jacobian overload
projects the unnegated head, and its result is unchanged when `w` is
replaced by `1`. -/
theorem C2_homogeneousToKeypoint_sign_witness :
    homogeneousToKeypoint testCamera ⟨0, 0, -1, -1⟩
        = euclideanToKeypoint testCamera ⟨0, 0, 1⟩ ∧
    (homogeneousToKeypointJ testCamera ⟨0, 0, -1, -1⟩).1
        = (euclideanToKeypointJ testCamera ⟨0, 0, -1⟩).1 ∧
    homogeneousToKeypointJ testCamera ⟨0, 0, -1, 1⟩
        = homogeneousToKeypointJ testCamera ⟨0, 0, -1, -1⟩ := by
  obtain ⟨hneg, -, hk, -, -, hw⟩ :=
    C2_homogeneousToKeypoint_sign testCamera ⟨0, 0, -1, -1⟩
  exact ⟨hneg (by norm_num), hk, hw 1⟩

/-- Claim C5: `keypointToEuclidean` (both overloads) writes the point given
by subtracting the principal point, dividing by the focal lengths,
undistorting and setting `z = 1`, and its boolean return value is
`isValid` of the input keypoint; in particular the boolean does not depend
on the undistortion map at all. -/
theorem C5_keypointToEuclidean_spec (cam : PinholeCamera) (k : ℚ × ℚ) :
    (keypointToEuclidean cam k).1 = specBackProjectedPoint cam k ∧
    (keypointToEuclidean cam k).2 = isValid cam k ∧
    (keypointToEuclideanJ cam k).1 = specBackProjectedPoint cam k ∧
    (keypointToEuclideanJ cam k).2.2 = isValid cam k ∧
    (∀ u : ℚ × ℚ → ℚ × ℚ,
      (keypointToEuclidean { cam with undistort := u } k).2
        = isValid cam k) := by
  exact ⟨rfl, rfl, rfl, rfl, fun u => rfl⟩

/-- Source lines 546-552, `updateTemporaries()`: recompute `_recip_fu =
1/_fu`, `_recip_fv = 1/_fv`, `_fu_over_fv = _fu/_fv`. -/
def updateTemporaries (cam : PinholeCamera) : PinholeCamera :=
  { cam with
    recip_fu := 1 / cam.fu
    recip_fv := 1 / cam.fv
    fu_over_fv := cam.fu / cam.fv }

/-- Source lines 507-516, `update(v)`: add the 4-element delta to
`_fu _fv _cu _cv` and recompute the three cached temporaries inline. -/
def update (cam : PinholeCamera) (v : ℚ × ℚ × ℚ × ℚ) : PinholeCamera :=
  { cam with
    fu := cam.fu + v.1
    fv := cam.fv + v.2.1
    cu := cam.cu + v.2.2.1
    cv := cam.cv + v.2.2.2
    recip_fu := 1 / (cam.fu + v.1)
    recip_fv := 1 / (cam.fv + v.2.1)
    fu_over_fv := (cam.fu + v.1) / (cam.fv + v.2.1) }

/-- Source lines 532-539, `setParameters(P)`: overwrite `_fu _fv _cu _cv`
from the flat 4-vector, then call `updateTemporaries()`. -/
def setParameters (cam : PinholeCamera) (P : ℚ × ℚ × ℚ × ℚ) :
    PinholeCamera :=
  updateTemporaries
    { cam with fu := P.1, fv := P.2.1, cu := P.2.2.1, cv := P.2.2.2 }

/-- C++ double-to-int conversion truncates toward zero (`_ru = _ru * scale`
with `int _ru` and `double scale`). -/
def cppTruncToInt (q : ℚ) : ℤ :=
  if 0 ≤ q then ⌊q⌋ else -⌊-q⌋

/-- Source lines 569-579, `resizeIntrinsics(scale)`: scale `_fu _fv _cu
_cv` and the integer resolution `_ru _rv` (truncating conversion), then
call `updateTemporaries()`. -/
def resizeIntrinsics (cam : PinholeCamera) (scale : ℚ) : PinholeCamera :=
  updateTemporaries
    { cam with
      fu := cam.fu * scale
      fv := cam.fv * scale
      cu := cam.cu * scale
      cv := cam.cv * scale
      ru := cppTruncToInt ((cam.ru : ℚ) * scale)
      rv := cppTruncToInt ((cam.rv : ℚ) * scale) }

/-- Source lines 432-449, `load(ar, version)`: read `_fu _fv _cu _cv _ru
_rv _distortion` from the archive (here passed as arguments), then call
`updateTemporaries()`. -/
def load (cam : PinholeCamera) (fu fv cu cv : ℚ) (ru rv : ℤ)
    (distort : ℚ × ℚ → ℚ × ℚ) (distortJac : ℚ × ℚ → Mat2)
    (undistort : ℚ × ℚ → ℚ × ℚ) (undistortJac : ℚ × ℚ → Mat2) :
    PinholeCamera :=
  updateTemporaries
    { cam with
      fu := fu, fv := fv, cu := cu, cv := cv, ru := ru, rv := rv
      distort := distort, distortJac := distortJac
      undistort := undistort, undistortJac := undistortJac }

/-- The cache invariant of the spec: the stored temporaries agree with the
current focal lengths. -/
def cachesFresh (cam : PinholeCamera) : Prop :=
  cam.recip_fu = 1 / cam.fu ∧ cam.recip_fv = 1 / cam.fv ∧
    cam.fu_over_fv = cam.fu / cam.fv

/-- Source lines 452-459, `createRandomKeypoint()`: `out.setRandom()`
draws each coefficient from the closed interval `[-1, 1]` (the draw is the
explicit argument `r` here), then `out(i) = fabs(out(i)) * resolution`. -/
def createRandomKeypoint (cam : PinholeCamera) (r : ℚ × ℚ) : ℚ × ℚ :=
  (|r.1| * (cam.ru : ℚ), |r.2| * (cam.rv : ℚ))

/-- Claim C9 is a code bug: the draw `(1, 1)` lies in `[-1, 1]^2`, yet the
produced keypoint is exactly `(ru, rv)`, which `isValid` rejects because
the upper bound is exclusive; this contradicts the function's own comment
"creates a random valid keypoint". Evaluated at the test camera. -/
theorem C9_createRandomKeypoint_boundary_invalid :
    ((-1 : ℚ) ≤ 1 ∧ (1 : ℚ) ≤ 1) ∧
    createRandomKeypoint testCamera (1, 1)
        = ((testCamera.ru : ℚ), (testCamera.rv : ℚ)) ∧
    isValid testCamera (createRandomKeypoint testCamera (1, 1)) = false := by
  refine ⟨⟨by norm_num, le_refl 1⟩, ?_, ?_⟩
  · norm_num [createRandomKeypoint, testCamera]
  · norm_num [createRandomKeypoint, isValid, testCamera]

/-- The dimensions `keypointToHomogeneous(keypoint, outPoint, outJk)` gives
its output Jacobian at source line 310: `Jk.derived().resize(2, 4)`. -/
def keypointToHomogeneousJDims : ℕ × ℕ :=
  (2, 4)

/-- The block of that Jacobian handed on at source line 318
(`Jk.template topLeftCorner<3, 2>()`), which is also the size the callee
`keypointToEuclidean` resizes its Jacobian argument to at line 260
(`J.derived().resize(3, KeypointDimension)`). -/
def keypointToHomogeneousJBlock : ℕ × ℕ :=
  (3, 2)

/-- A row-count by column-count block access is in range of an output of
the given dimensions iff it fits in both directions. -/
def blockFits (outer block : ℕ × ℕ) : Prop :=
  block.1 ≤ outer.1 ∧ block.2 ≤ outer.2

/-- Claim C10 is a code bug: the Jacobian overload of
`keypointToHomogeneous` resizes its output Jacobian to 2 by 4 and then
accesses a 3 by 2 top-left block of it, which is out of range in the row
direction (3 rows of a 2-row matrix); in particular the output is not the
4 by 2 matrix the claim requires. The same overload also writes
`outPoint[3]` without first resizing `outPoint` to length 4. -/
theorem C10_keypointToHomogeneousJ_block_out_of_range :
    ¬ blockFits keypointToHomogeneousJDims keypointToHomogeneousJBlock ∧
    keypointToHomogeneousJDims ≠ (4, 2) := by
  exact ⟨fun h => absurd h.1 (by decide), by decide⟩

/-
The intrinsics initializer (source lines 615-734) takes genuine square
roots, so it is embedded over the reals. The external collaborators it
consults per grid row - `cv::SVD::solveZ` (the null vector `C`),
`estimateTransformation` (which delegates to the external `cv::solvePnP`
and the observation accessors), and `computeReprojectionError` (which
iterates over the external observation) - are carried as per-row oracle
data in `RowData`: the four entries of the solved null vector, the pose
estimation success flag, and the returned error sum and count. The
mid-loop assignment of `_fu = _fv = gamma` (source lines 694-696) feeds
only those external calls and is overwritten unconditionally at lines
730-732, so it does not appear in the state fold.
-/

open scoped Classical

/-- Source line 667: `const size_t MIN_CORNERS = 3`. -/
def MIN_CORNERS : ℕ :=
  3

/-- Per-row data of the initializer scan: the number of valid corner
pixels collected for the row (source lines 651-665), the null vector `C`
returned by the external SVD solve (line 672), the external pose
estimation outcome (line 698), and the reprojection error sum and count
returned by `computeReprojectionError` (line 706). -/
structure RowData where
  count : ℕ
  c0 : ℝ
  c1 : ℝ
  c2 : ℝ
  c3 : ℝ
  poseOk : Bool
  reprojErr : ℝ
  numReprojected : ℕ

/-- Source lines 674-675: `t = square(C(0)) + square(C(1)) + C(2)*C(3)`. -/
noncomputable def rowT (row : RowData) : ℝ :=
  row.c0 ^ 2 + row.c1 ^ 2 + row.c2 * row.c3

/-- Source line 682: `d = sqrt(1.0 / t)`. -/
noncomputable def rowD (row : RowData) : ℝ :=
  Real.sqrt (1 / rowT row)

/-- Source line 683: `nx = C(0) * d`. -/
noncomputable def rowNx (row : RowData) : ℝ :=
  row.c0 * rowD row

/-- Source line 684: `ny = C(1) * d`. -/
noncomputable def rowNy (row : RowData) : ℝ :=
  row.c1 * rowD row

/-- Source line 685: `hypot(nx, ny) = sqrt(square(nx) + square(ny))`
(helper at lines 604-606). -/
noncomputable def rowHypot (row : RowData) : ℝ :=
  Real.sqrt (rowNx row ^ 2 + rowNy row ^ 2)

/-- Source line 690: `nz = sqrt(1.0 - square(nx) - square(ny))`. -/
noncomputable def rowNz (row : RowData) : ℝ :=
  Real.sqrt (1 - rowNx row ^ 2 - rowNy row ^ 2)

/-- Source line 691: `gamma = fabs(C(2) * d / nz)`, the row's candidate
focal length. -/
noncomputable def rowGamma (row : RowData) : ℝ :=
  |row.c2 * rowD row / rowNz row|

/-- Source line 710: `avgReprojErr = reprojErr / numReprojected`. -/
noncomputable def rowAvg (row : RowData) : ℝ :=
  row.reprojErr / (row.numReprojected : ℝ)

/-- The running state of the row scan: the recorded best `gamma0`, the
best mean reprojection error so far (`none` is the initial
`std::numeric_limits<double>::max()` sentinel, source line 645), and the
`success` flag. -/
def ScanState : Type :=
  ℝ × Option ℝ × Bool

/-- Source lines 670-721, the body guarded by `count > MIN_CORNERS`: skip
on a negative `t` (line 676), on a radial line (`hypot(nx, ny) > 0.95`,
line 685), on pose estimation failure (line 698), and record the candidate
only when more than `MIN_CORNERS` points reprojected (line 709) and the
mean error strictly improves on the best so far (line 712). -/
noncomputable def processFit (st : ScanState) (row : RowData) : ScanState :=
  if rowT row < 0 then st
  else if 0.95 < rowHypot row then st
  else if row.poseOk = false then st
  else if MIN_CORNERS < row.numReprojected then
    match st.2.1 with
    | none => (rowGamma row, some (rowAvg row), true)
    | some m =>
        if rowAvg row < m then (rowGamma row, some (rowAvg row), true) else st
  else st

/-- Source lines 669 and 722-727: a row enters the fit at all only when
`count > MIN_CORNERS`; otherwise it is logged and skipped. -/
noncomputable def processRow (st : ScanState) (row : RowData) : ScanState :=
  if MIN_CORNERS < row.count then processFit st row else st

/-- State of the projection model as the initializer mutates it (over the
reals, because the candidate focal length is a square-root expression). -/
structure IntrState where
  fu : ℝ
  fv : ℝ
  cu : ℝ
  cv : ℝ
  ru : ℤ
  rv : ℤ
  recip_fu : ℝ
  recip_fv : ℝ
  fu_over_fv : ℝ

/-- `updateTemporaries()` over the reals (source lines 546-552). -/
noncomputable def updateTemporariesR (st : IntrState) : IntrState :=
  { st with
    recip_fu := 1 / st.fu
    recip_fv := 1 / st.fv
    fu_over_fv := st.fu / st.fv }

/-- The cache invariant over the reals. -/
def cachesFreshR (st : IntrState) : Prop :=
  st.recip_fu = 1 / st.fu ∧ st.recip_fv = 1 / st.fv ∧
    st.fu_over_fv = st.fu / st.fv

/-- Source lines 615-734, `initializeIntrinsics(observations)`: return
false untouched when the observation has no target (lines 627-630);
otherwise set the principal point to the image center and the resolution
from the image (lines 632-636), scan the grid rows for the best focal
length candidate (lines 648-728), write `_fu = _fv = gamma0` (0.0 when no
row ever recorded, line 644), refresh the temporaries, and return the
success flag (lines 730-733). -/
noncomputable def initializeIntrinsics (st : IntrState) (hasTarget : Bool)
    (imCols imRows : ℤ) (rows : List RowData) : IntrState × Bool :=
  if hasTarget then
    let st1 : IntrState :=
      { st with
        cu := ((imCols : ℝ) - 1) / 2
        cv := ((imRows : ℝ) - 1) / 2
        ru := imCols
        rv := imRows }
    let res := rows.foldl processRow ((0 : ℝ), (none : Option ℝ), false)
    (updateTemporariesR { st1 with fu := res.1, fv := res.1 }, res.2.2)
  else (st, false)

/-- A row survives every skip condition of the scan: more than
`MIN_CORNERS` valid corners, a non-negative `t`, a non-radial line, a
successful pose estimate, and more than `MIN_CORNERS` reprojected points. -/
def rowPasses (row : RowData) : Prop :=
  MIN_CORNERS < row.count ∧ 0 ≤ rowT row ∧ rowHypot row ≤ 0.95 ∧
    row.poseOk = true ∧ MIN_CORNERS < row.numReprojected

/-- Modelled from the spec wording of claim C6: the `(gamma, mean error)`
pair of the surviving row with the lowest mean reprojection error, the
first such row winning ties (`none` when no row survives). -/
noncomputable def bestOf : List RowData → Option (ℝ × ℝ)
  | [] => none
  | r :: rs =>
    if rowPasses r then
      match bestOf rs with
      | none => some (rowGamma r, rowAvg r)
      | some p =>
          if rowAvg r ≤ p.2 then some (rowGamma r, rowAvg r) else some p
    else bestOf rs

/-- Recording a candidate `(gamma, avg)` against a scan state: record when
the sentinel is unset or the mean error strictly improves. -/
noncomputable def stepBest (q : ℝ × ℝ) (st : ScanState) : ScanState :=
  match st.2.1 with
  | none => (q.1, some q.2, true)
  | some m => if q.2 < m then (q.1, some q.2, true) else st

/-- `processRow` in terms of `rowPasses` and `stepBest`. -/
theorem processRow_eq (st : ScanState) (r : RowData) :
    processRow st r =
      if rowPasses r then stepBest (rowGamma r, rowAvg r) st else st := by
  by_cases h1 : MIN_CORNERS < r.count
  · by_cases h2 : rowT r < 0
    · have hp : ¬ rowPasses r := fun hp => absurd hp.2.1 (not_le.mpr h2)
      simp [processRow, processFit, h1, h2, hp]
    · by_cases h3 : 0.95 < rowHypot r
      · have hp : ¬ rowPasses r := fun hp => absurd hp.2.2.1 (not_le.mpr h3)
        simp [processRow, processFit, h1, h2, h3, hp]
      · by_cases h4 : r.poseOk = false
        · have hp : ¬ rowPasses r := fun hp => by
            rw [hp.2.2.2.1] at h4
            simp at h4
          simp [processRow, processFit, h1, h2, h3, h4, hp]
        · have hpose : r.poseOk = true := by
            cases hb : r.poseOk
            · exact absurd hb h4
            · rfl
          by_cases h5 : MIN_CORNERS < r.numReprojected
          · have hp : rowPasses r :=
              ⟨h1, not_lt.mp h2, not_lt.mp h3, hpose, h5⟩
            simp [processRow, processFit, stepBest, h1, h2, h3, h4, h5, hp]
          · have hp : ¬ rowPasses r := fun hp => h5 hp.2.2.2.2
            simp [processRow, processFit, h1, h2, h3, h4, h5, hp]
  · have hp : ¬ rowPasses r := fun hp => h1 hp.1
    simp [processRow, h1, hp]

/-- Recording two candidates in sequence is recording the better one (the
earlier on ties). -/
theorem stepBest_stepBest (p q : ℝ × ℝ) (st : ScanState) :
    stepBest p (stepBest q st) =
      stepBest (if q.2 ≤ p.2 then q else p) st := by
  obtain ⟨g, m, s⟩ := st
  by_cases hle : q.2 ≤ p.2
  · cases m with
    | none => simp [stepBest, hle, not_lt.mpr hle]
    | some mv =>
      by_cases hq : q.2 < mv
      · simp [stepBest, hle, hq, not_lt.mpr hle]
      · have hpm : ¬ p.2 < mv := fun hc => hq (lt_of_le_of_lt hle hc)
        simp [stepBest, hle, hq, hpm]
  · have hlt : p.2 < q.2 := not_le.mp hle
    cases m with
    | none => simp [stepBest, hle, hlt]
    | some mv =>
      by_cases hq : q.2 < mv
      · have hpm : p.2 < mv := lt_trans hlt hq
        simp [stepBest, hle, hq, hlt, hpm]
      · simp [stepBest, hle, hq]

/-- The row scan is the first-wins argmin: folding `processRow` over the
rows records exactly the `bestOf` candidate against the initial state. -/
theorem foldl_processRow_eq_bestOf (rows : List RowData) :
    ∀ st : ScanState,
      rows.foldl processRow st =
        match bestOf rows with
        | none => st
        | some q => stepBest q st := by
  induction rows with
  | nil => intro st; rfl
  | cons r rs ih =>
    intro st
    rw [List.foldl_cons, processRow_eq]
    by_cases hp : rowPasses r
    · rw [if_pos hp, ih]
      cases hb : bestOf rs with
      | none =>
        have hbc : bestOf (r :: rs) = some (rowGamma r, rowAvg r) := by
          rw [bestOf, if_pos hp, hb]
        simp only [hb]
        rw [hbc]
      | some p =>
        have hbc : bestOf (r :: rs)
            = if rowAvg r ≤ p.2 then some (rowGamma r, rowAvg r)
              else some p := by
          rw [bestOf, if_pos hp, hb]
        rw [hbc]
        simp only [hb, stepBest_stepBest]
        by_cases hle : rowAvg r ≤ p.2 <;> simp [hle]
    · rw [if_neg hp, ih]
      simp [bestOf, hp]

/-- No candidate is recorded iff no row survives every skip condition. -/
theorem bestOf_eq_none_iff (rows : List RowData) :
    bestOf rows = none ↔ ∀ r ∈ rows, ¬ rowPasses r := by
  induction rows with
  | nil => simp [bestOf]
  | cons r rs ih =>
    by_cases hp : rowPasses r
    · cases hb : bestOf rs with
      | none => simp [bestOf, hp, hb, ih]
      | some p =>
        constructor
        · intro h
          rw [bestOf, if_pos hp, hb] at h
          by_cases hle : rowAvg r ≤ p.2 <;> simp [hle] at h
        · intro h
          exact absurd hp (h r (List.mem_cons_self r rs))
    · simp only [bestOf, if_neg hp, ih, List.mem_cons]
      constructor
      · rintro h s (rfl | hs)
        · exact hp
        · exact h s hs
      · intro h s hs
        exact h s (Or.inr hs)

/-- The recorded candidate is a surviving row's `(gamma, mean error)` and
its mean error is minimal among all surviving rows. -/
theorem bestOf_spec (rows : List RowData) (q : ℝ × ℝ)
    (hq : bestOf rows = some q) :
    (∃ r ∈ rows, rowPasses r ∧ q.1 = rowGamma r ∧ q.2 = rowAvg r) ∧
    (∀ s ∈ rows, rowPasses s → q.2 ≤ rowAvg s) := by
  induction rows generalizing q with
  | nil => simp [bestOf] at hq
  | cons r rs ih =>
    by_cases hp : rowPasses r
    · cases hb : bestOf rs with
      | none =>
        rw [bestOf, if_pos hp, hb] at hq
        obtain rfl : (rowGamma r, rowAvg r) = q := by
          simpa using hq
        have hnone := (bestOf_eq_none_iff rs).mp hb
        refine ⟨⟨r, List.mem_cons_self r rs, hp, rfl, rfl⟩, ?_⟩
        rintro s hs hps
        rcases List.mem_cons.mp hs with rfl | hs'
        · exact le_refl _
        · exact absurd hps (hnone s hs')
      | some p =>
        rw [bestOf, if_pos hp, hb] at hq
        obtain ⟨⟨r', hr', hp', hg', ha'⟩, hmin⟩ := ih p hb
        by_cases hle : rowAvg r ≤ p.2
        · obtain rfl : (rowGamma r, rowAvg r) = q := by simpa [hle] using hq
          refine ⟨⟨r, List.mem_cons_self r rs, hp, rfl, rfl⟩, ?_⟩
          rintro s hs hps
          rcases List.mem_cons.mp hs with rfl | hs'
          · exact le_refl _
          · exact le_trans hle (hmin s hs' hps)
        · obtain rfl : p = q := by simpa [hle] using hq
          refine ⟨⟨r', List.mem_cons_of_mem r hr', hp', hg', ha'⟩, ?_⟩
          rintro s hs hps
          rcases List.mem_cons.mp hs with rfl | hs'
          · exact le_of_lt (not_le.mp hle)
          · exact hmin s hs' hps
    · rw [bestOf, if_neg hp] at hq
      obtain ⟨⟨r', hr', hp', hg', ha'⟩, hmin⟩ := ih q hq
      refine ⟨⟨r', List.mem_cons_of_mem r hr', hp', hg', ha'⟩, ?_⟩
      rintro s hs hps
      rcases List.mem_cons.mp hs with rfl | hs'
      · exact absurd hps hp
      · exact hmin s hs' hps

/-- Claim C6: the initializer succeeds iff (the observation has a target
and) at least one grid row survives every skip condition, in which case a
candidate is recorded; on a targeted return, `fu` and `fv` are both set to
the `gamma` of the surviving row with the lowest mean reprojection error,
the first such row winning ties (the `bestOf` candidate, whose
characterization is `bestOf_spec`), and to the initial `gamma0 = 0` when
no row ever succeeds, in which case it returns false. -/
theorem C6_initializeIntrinsics_success_and_best (st : IntrState)
    (hasTarget : Bool) (imCols imRows : ℤ) (rows : List RowData) :
    ((initializeIntrinsics st hasTarget imCols imRows rows).2 = true ↔
      (hasTarget = true ∧ ∃ r ∈ rows, rowPasses r)) ∧
    (hasTarget = true →
      (initializeIntrinsics st hasTarget imCols imRows rows).1.fu
        = (initializeIntrinsics st hasTarget imCols imRows rows).1.fv ∧
      (initializeIntrinsics st hasTarget imCols imRows rows).1.fu
        = ((bestOf rows).map Prod.fst).getD 0) := by
  have hfold := foldl_processRow_eq_bestOf rows ((0 : ℝ), none, false)
  cases hasTarget with
  | false =>
    constructor
    · simp [initializeIntrinsics]
    · intro h
      exact absurd h (by simp)
  | true =>
    have hres :
        (initializeIntrinsics st true imCols imRows rows)
          = (updateTemporariesR
              { st with
                cu := ((imCols : ℝ) - 1) / 2
                cv := ((imRows : ℝ) - 1) / 2
                ru := imCols
                rv := imRows
                fu := (rows.foldl processRow ((0 : ℝ), none, false)).1
                fv := (rows.foldl processRow ((0 : ℝ), none, false)).1 },
             (rows.foldl processRow ((0 : ℝ), none, false)).2.2) := rfl
    rw [hres, hfold]
    cases hb : bestOf rows with
    | none =>
      have hnone := (bestOf_eq_none_iff rows).mp hb
      constructor
      · constructor
        · intro h
          simp at h
        · rintro ⟨-, r, hr, hp⟩
          exact absurd hp (hnone r hr)
      · rintro -
        constructor
        · rfl
        · simp [updateTemporariesR]
    | some q =>
      obtain ⟨⟨r, hr, hp, -, -⟩, -⟩ := bestOf_spec rows q hb
      constructor
      · constructor
        · rintro -
          exact ⟨rfl, r, hr, hp⟩
        · rintro -
          simp [stepBest]
      · rintro -
        constructor
        · rfl
        · simp [stepBest, updateTemporariesR]

/-- Witness for C6: on the empty row list with a present target the
initializer fails and leaves `fu = fv = 0`. -/
theorem C6_initializeIntrinsics_success_and_best_witness :
    ((initializeIntrinsics ⟨400, 400, 320, 240, 640, 480, 1 / 400, 1 / 400,
        1⟩ true 640 480 []).2 = true ↔
      (true = true ∧ ∃ r ∈ ([] : List RowData), rowPasses r)) ∧
    (initializeIntrinsics ⟨400, 400, 320, 240, 640, 480, 1 / 400, 1 / 400,
        1⟩ true 640 480 []).1.fu = 0 := by
  obtain ⟨h1, h2⟩ := C6_initializeIntrinsics_success_and_best
    ⟨400, 400, 320, 240, 640, 480, 1 / 400, 1 / 400, 1⟩ true 640 480 []
  refine ⟨h1, ?_⟩
  rw [(h2 rfl).2]
  simp [bestOf]

/-- A fixed row carrying exactly 3 valid corners together with oracle data
that passes every other skip condition: the SVD null vector
`(3/5, 0, 4/5, 4/5)` gives `t = 1`, `d = 1`, a non-radial direction
`(nx, ny) = (3/5, 0)`, a successful pose estimate and 4 reprojected
points. -/
noncomputable def rowThreeCorners : RowData :=
  ⟨3, 3 / 5, 0, 4 / 5, 4 / 5, true, 1, 4⟩

/-- Counterexample to claim C3: `rowThreeCorners` has (at least) 3 valid
corners and passes every skip condition other than the corner count, yet
the scan leaves the state untouched - no SVD fit, no candidate, no
success - because the source keeps a row only when `count > MIN_CORNERS`,
i.e. when it has strictly more than 3 valid corners. Under the claim this
first surviving row would have been recorded against the unset sentinel. -/
theorem C3_three_corner_row_is_skipped :
    MIN_CORNERS ≤ rowThreeCorners.count ∧
    0 ≤ rowT rowThreeCorners ∧
    rowHypot rowThreeCorners ≤ 0.95 ∧
    rowThreeCorners.poseOk = true ∧
    MIN_CORNERS < rowThreeCorners.numReprojected ∧
    processRow ((0 : ℝ), (none : Option ℝ), false) rowThreeCorners
      = ((0 : ℝ), (none : Option ℝ), false) := by
  have ht : rowT rowThreeCorners = 1 := by
    norm_num [rowT, rowThreeCorners]
  have hd : rowD rowThreeCorners = 1 := by
    rw [rowD, ht]
    norm_num [Real.sqrt_one]
  have hhyp : rowHypot rowThreeCorners = 3 / 5 := by
    rw [rowHypot, rowNx, rowNy, hd]
    have h1 : rowThreeCorners.c0 * 1 ^ 2 = rowThreeCorners.c0 := by ring
    have h2 : (rowThreeCorners.c0 * 1) ^ 2 + (rowThreeCorners.c1 * 1) ^ 2
        = ((3 : ℝ) / 5) ^ 2 := by
      norm_num [rowThreeCorners]
    rw [h2, Real.sqrt_sq (by norm_num : (0 : ℝ) ≤ 3 / 5)]
  refine ⟨by norm_num [rowThreeCorners, MIN_CORNERS], by rw [ht]; norm_num,
    by rw [hhyp]; norm_num, rfl, by norm_num [rowThreeCorners, MIN_CORNERS],
    ?_⟩
  have hcount : ¬ MIN_CORNERS < rowThreeCorners.count := by
    norm_num [rowThreeCorners, MIN_CORNERS]
  rw [processRow, if_neg hcount]

/-- Claim C3 amended: a grid row is skipped (the scan state is untouched,
no SVD fit is attempted) exactly when it has at most `MIN_CORNERS = 3`
valid corner pixels, i.e. fewer than 4; every row with more than 3 valid
corners enters the SVD fit. -/
theorem C3_row_skip_threshold (st : ScanState) (row : RowData) :
    (row.count ≤ MIN_CORNERS → processRow st row = st) ∧
    (MIN_CORNERS < row.count → processRow st row = processFit st row) := by
  constructor
  · intro h
    rw [processRow, if_neg (not_lt.mpr h)]
  · intro h
    rw [processRow, if_pos h]

/-- Witness for the amended C3: `rowThreeCorners` (3 corners) is skipped,
and the same row with a count of 4 enters the fit. -/
theorem C3_row_skip_threshold_witness :
    processRow ((0 : ℝ), (none : Option ℝ), false) rowThreeCorners
      = ((0 : ℝ), (none : Option ℝ), false) ∧
    processRow ((0 : ℝ), (none : Option ℝ), false)
        ⟨4, 3 / 5, 0, 4 / 5, 4 / 5, true, 1, 4⟩
      = processFit ((0 : ℝ), (none : Option ℝ), false)
        ⟨4, 3 / 5, 0, 4 / 5, 4 / 5, true, 1, 4⟩ := by
  constructor
  · exact (C3_row_skip_threshold _ rowThreeCorners).1
      (by norm_num [rowThreeCorners, MIN_CORNERS])
  · exact (C3_row_skip_threshold _ _).2 (by norm_num [MIN_CORNERS])

/-- Claim C7: every mutator of the projection model returns with the
cached reciprocals and ratio agreeing with the focal lengths it leaves
behind: `update`, `setParameters`, `resizeIntrinsics` and `load`
unconditionally, and `initializeIntrinsics` whenever the target is
present (on the no-target early return it mutates nothing, so freshness
is preserved). -/
theorem C7_caches_never_stale :
    (∀ (cam : PinholeCamera) (v : ℚ × ℚ × ℚ × ℚ),
      cachesFresh (update cam v)) ∧
    (∀ (cam : PinholeCamera) (P : ℚ × ℚ × ℚ × ℚ),
      cachesFresh (setParameters cam P)) ∧
    (∀ (cam : PinholeCamera) (scale : ℚ),
      cachesFresh (resizeIntrinsics cam scale)) ∧
    (∀ (cam : PinholeCamera) (fu fv cu cv : ℚ) (ru rv : ℤ)
      (d : ℚ × ℚ → ℚ × ℚ) (dj : ℚ × ℚ → Mat2) (u : ℚ × ℚ → ℚ × ℚ)
      (uj : ℚ × ℚ → Mat2),
      cachesFresh (load cam fu fv cu cv ru rv d dj u uj)) ∧
    (∀ (st : IntrState) (imCols imRows : ℤ) (rows : List RowData),
      cachesFreshR (initializeIntrinsics st true imCols imRows rows).1) ∧
    (∀ (st : IntrState) (hasTarget : Bool) (imCols imRows : ℤ)
      (rows : List RowData), cachesFreshR st →
      cachesFreshR (initializeIntrinsics st hasTarget imCols imRows
        rows).1) := by
  refine ⟨fun cam v => ⟨rfl, rfl, rfl⟩, fun cam P => ⟨rfl, rfl, rfl⟩,
    fun cam scale => ⟨rfl, rfl, rfl⟩,
    fun cam fu fv cu cv ru rv d dj u uj => ⟨rfl, rfl, rfl⟩,
    fun st imCols imRows rows => ⟨rfl, rfl, rfl⟩,
    fun st hasTarget imCols imRows rows hfresh => ?_⟩
  cases hasTarget with
  | false => exact hfresh
  | true => exact ⟨rfl, rfl, rfl⟩

/-- Witness for C7 at a concrete fresh state and the no-target early
return: both initializer paths leave the caches in agreement with the
focal lengths. -/
theorem C7_caches_never_stale_witness :
    cachesFreshR (initializeIntrinsics
      ⟨400, 400, 320, 240, 640, 480, 1 / 400, 1 / 400, 1⟩ true 640 480
      []).1 ∧
    cachesFreshR (initializeIntrinsics
      ⟨400, 400, 320, 240, 640, 480, 1 / 400, 1 / 400, 1⟩ false 640 480
      []).1 := by
  refine ⟨C7_caches_never_stale.2.2.2.2.1 _ 640 480 [],
    C7_caches_never_stale.2.2.2.2.2 _ false 640 480 [] ?_⟩
  refine ⟨by norm_num, by norm_num, by norm_num⟩

/-- The distance between the two circle centers,
`d = hypot(x1 - x2, y1 - y2)` (helper source, line 20). -/
noncomputable def ccDist (x1 y1 x2 y2 : ℝ) : ℝ :=
  Real.sqrt ((x1 - x2) ^ 2 + (y1 - y2) ^ 2)

/-- The chord decomposition abscissa,
`a = (square(r1) - square(r2) + square(d)) / (2.0 * d)` (line 31). -/
noncomputable def ccA (x1 y1 r1 x2 y2 r2 : ℝ) : ℝ :=
  (r1 ^ 2 - r2 ^ 2 + ccDist x1 y1 x2 y2 ^ 2) / (2 * ccDist x1 y1 x2 y2)

/-- The chord half-height, `h = sqrt(square(r1) - square(a))` (line 32). -/
noncomputable def ccH (x1 y1 r1 x2 y2 r2 : ℝ) : ℝ :=
  Real.sqrt (r1 ^ 2 - ccA x1 y1 r1 x2 y2 r2 ^ 2)

/-- The chord base point `(x3, y3)` on the center line (lines 34-35). -/
noncomputable def ccBase (x1 y1 r1 x2 y2 r2 : ℝ) : ℝ × ℝ :=
  (x1 + ccA x1 y1 r1 x2 y2 r2 * (x2 - x1) / ccDist x1 y1 x2 y2,
   y1 + ccA x1 y1 r1 x2 y2 r2 * (y2 - y1) / ccDist x1 y1 x2 y2)

/-- The first emitted intersection point (line 43). -/
noncomputable def ccP1 (x1 y1 r1 x2 y2 r2 : ℝ) : ℝ × ℝ :=
  ((ccBase x1 y1 r1 x2 y2 r2).1
      + ccH x1 y1 r1 x2 y2 r2 * (y2 - y1) / ccDist x1 y1 x2 y2,
   (ccBase x1 y1 r1 x2 y2 r2).2
      - ccH x1 y1 r1 x2 y2 r2 * (x2 - x1) / ccDist x1 y1 x2 y2)

/-- The second emitted intersection point (line 44). -/
noncomputable def ccP2 (x1 y1 r1 x2 y2 r2 : ℝ) : ℝ × ℝ :=
  ((ccBase x1 y1 r1 x2 y2 r2).1
      - ccH x1 y1 r1 x2 y2 r2 * (y2 - y1) / ccDist x1 y1 x2 y2,
   (ccBase x1 y1 r1 x2 y2 r2).2
      + ccH x1 y1 r1 x2 y2 r2 * (x2 - x1) / ccDist x1 y1 x2 y2)

/-- `PinholeHelpers::intersectCircles` (helper source lines 16-46): empty
when `d > r1 + r2` (disjoint) or `d < fabs(r1 - r2)` (nested), one point
when `h < 1e-10` (tangent), the two chord points otherwise. -/
noncomputable def intersectCircles (x1 y1 r1 x2 y2 r2 : ℝ) :
    List (ℝ × ℝ) :=
  if ccDist x1 y1 x2 y2 > r1 + r2 then []
  else if ccDist x1 y1 x2 y2 < |r1 - r2| then []
  else if ccH x1 y1 r1 x2 y2 r2 < 1e-10 then [ccBase x1 y1 r1 x2 y2 r2]
  else [ccP1 x1 y1 r1 x2 y2 r2, ccP2 x1 y1 r1 x2 y2 r2]

/-- Claim C8: `intersectCircles` returns no point exactly in the disjoint
(`d > r1 + r2`) and nested (`d < |r1 - r2|`) configurations, exactly one
point - the chord base - when the chord half-height is below `1e-10`
(tangency), and exactly the two closed-form chord points otherwise. -/
theorem C8_intersectCircles_cases (x1 y1 r1 x2 y2 r2 : ℝ) :
    ((r1 + r2 < ccDist x1 y1 x2 y2 ∨ ccDist x1 y1 x2 y2 < |r1 - r2|) →
      intersectCircles x1 y1 r1 x2 y2 r2 = []) ∧
    (ccDist x1 y1 x2 y2 ≤ r1 + r2 → |r1 - r2| ≤ ccDist x1 y1 x2 y2 →
      ccH x1 y1 r1 x2 y2 r2 < 1e-10 →
      intersectCircles x1 y1 r1 x2 y2 r2 = [ccBase x1 y1 r1 x2 y2 r2]) ∧
    (ccDist x1 y1 x2 y2 ≤ r1 + r2 → |r1 - r2| ≤ ccDist x1 y1 x2 y2 →
      1e-10 ≤ ccH x1 y1 r1 x2 y2 r2 →
      intersectCircles x1 y1 r1 x2 y2 r2
        = [ccP1 x1 y1 r1 x2 y2 r2, ccP2 x1 y1 r1 x2 y2 r2]) := by
  refine ⟨?_, ?_, ?_⟩
  · rintro (h | h)
    · rw [intersectCircles, if_pos h]
    · rw [intersectCircles]
      by_cases h1 : r1 + r2 < ccDist x1 y1 x2 y2
      · rw [if_pos h1]
      · rw [if_neg h1, if_pos h]
  · intro h1 h2 h3
    rw [intersectCircles, if_neg (not_lt.mpr h1), if_neg (not_lt.mpr h2),
      if_pos h3]
  · intro h1 h2 h3
    rw [intersectCircles, if_neg (not_lt.mpr h1), if_neg (not_lt.mpr h2),
      if_neg (not_lt.mpr h3)]

/-- Witness for C8: the disjoint circles `((0,0),1)` and `((10,0),1)` give
no point; the tangent circles `((0,0),1)` and `((2,0),1)` give exactly the
touch point `(1, 0)`; the circles `((0,0),5)` and `((8,0),5)` give exactly
the two points `(4, -3)` and `(4, 3)`. -/
theorem C8_intersectCircles_cases_witness :
    intersectCircles 0 0 1 10 0 1 = [] ∧
    intersectCircles 0 0 1 2 0 1 = [(1, 0)] ∧
    intersectCircles 0 0 5 8 0 5 = [(4, -3), (4, 3)] := by
  have sq100 : ccDist 0 0 10 0 = 10 := by
    rw [ccDist, show ((0 : ℝ) - 10) ^ 2 + ((0 : ℝ) - 0) ^ 2 = 10 ^ 2 by
      norm_num]
    exact Real.sqrt_sq (by norm_num)
  have sq4 : ccDist 0 0 2 0 = 2 := by
    rw [ccDist, show ((0 : ℝ) - 2) ^ 2 + ((0 : ℝ) - 0) ^ 2 = 2 ^ 2 by
      norm_num]
    exact Real.sqrt_sq (by norm_num)
  have sq64 : ccDist 0 0 8 0 = 8 := by
    rw [ccDist, show ((0 : ℝ) - 8) ^ 2 + ((0 : ℝ) - 0) ^ 2 = 8 ^ 2 by
      norm_num]
    exact Real.sqrt_sq (by norm_num)
  have ha2 : ccA 0 0 1 2 0 1 = 1 := by
    rw [ccA, sq4]
    norm_num
  have hh2 : ccH 0 0 1 2 0 1 = 0 := by
    rw [ccH, ha2]
    norm_num
  have ha8 : ccA 0 0 5 8 0 5 = 4 := by
    rw [ccA, sq64]
    norm_num
  have hh8 : ccH 0 0 5 8 0 5 = 3 := by
    rw [ccH, ha8, show (5 : ℝ) ^ 2 - 4 ^ 2 = 3 ^ 2 by norm_num]
    exact Real.sqrt_sq (by norm_num)
  obtain ⟨e1, -, -⟩ := C8_intersectCircles_cases 0 0 1 10 0 1
  obtain ⟨-, e2, -⟩ := C8_intersectCircles_cases 0 0 1 2 0 1
  obtain ⟨-, -, e3⟩ := C8_intersectCircles_cases 0 0 5 8 0 5
  refine ⟨e1 (Or.inl (by rw [sq100]; norm_num)), ?_, ?_⟩
  · rw [e2 (by rw [sq4]; norm_num) (by rw [sq4]; norm_num)
      (by rw [hh2]; norm_num)]
    rw [ccBase, ha2, sq4]
    norm_num
  · rw [e3 (by rw [sq64]; norm_num) (by rw [sq64]; norm_num)
      (by rw [hh8]; norm_num)]
    rw [ccP1, ccP2, ccBase, ha8, hh8, sq64]
    norm_num

end AslamPinhole
